import Mathlib

/-!
Shallow embedding of the `ecr-dump` manifest-resolution pipeline
(`src/images.rs`, `src/repos.rs`).

External collaborators (the AWS ECR client, the `serde_json` parsers for
`ImageManifest` / `ImageIndex`, and the `globset` matchers) are modelled as
function parameters: a registry is a function from the list of requested
digests to the list of `(digest, manifest_text, media_type)` triples it
returns, and the parsers are functions `String → Option _`.

Rust `HashMap`s built by `collect()` from an iterator are modelled as
association lists built by repeated insert-with-overwrite (`buildMap`):
a later pair with the same key overwrites the earlier value (the key keeps
its first-occurrence position, which is immaterial since a `HashMap` has no
observable order; all downstream consumption is by lookup or by the
response's order).  `itertools`' `.unique()` is `dedupFirst` (keep the
first occurrence), `.into_group_map_by` is `groupPairsBy` (groups keyed in
first-occurrence order, elements in original order — `HashMap` group order
is unobservable to the properties proved here), and `.sorted()` is
`List.insertionSort (· ≤ ·)` (any correct sort of `String`s produces this
list, since equal strings are identical).

`buffer_unordered(concurrency)` completes results in nondeterministic
order; every property below is insensitive to the order in which chunk
results are collected, so the embedding fixes the natural sequential order
(`mapME`, fail-on-first-error, matching `try_collect`).
-/

/-- `ManifestType` from `src/images.rs`. -/
inductive ManifestType : Type where
  | Image : ManifestType
  | List : ManifestType
deriving DecidableEq, Repr, Inhabited

/-- `ManifestType::from_str` from `src/images.rs`: the four recognized
manifest media types. -/
def ManifestType.from_str (s : String) : Option ManifestType :=
  if s = "application/vnd.oci.image.manifest.v1+json" then some .Image
  else if s = "application/vnd.docker.distribution.manifest.v2+json" then some .Image
  else if s = "application/vnd.oci.image.index.v1+json" then some .List
  else if s = "application/vnd.docker.distribution.manifest.list.v2+json" then some .List
  else none

/-- `RepositoryImage` from `src/images.rs`; timestamps are modelled as
integers (epoch seconds). -/
structure RepositoryImage : Type where
  repository_name : String
  manifest_digest : String
  manifest_type : ManifestType
  image_tags : List String
  image_pushed_at : Int
  last_recorded_pull_time : Option Int
deriving DecidableEq, Repr, Inhabited

/-- An OCI `Descriptor` (external `oci_spec` crate): the fields the code
reads; `platform` is kept opaque as an optional string. -/
structure Descriptor : Type where
  digest : String
  media_type : String
  size : Nat
  platform : Option String
deriving DecidableEq, Repr, Inhabited

/-- A parsed single-architecture `ImageManifest` (external `oci_spec`
crate): consumed opaquely by this code, modelled as its raw content. -/
structure ImageManifest : Type where
  raw : String
deriving DecidableEq, Repr

/-- A parsed `ImageIndex` (external `oci_spec` crate): the code only reads
its `manifests()` descriptor list. -/
structure ImageIndex : Type where
  manifests : List Descriptor
deriving DecidableEq, Repr

/-- `ImageManifestWithDescriptor` from `src/images.rs`. -/
structure ImageManifestWithDescriptor : Type where
  manifest : ImageManifest
  descriptor : Option Descriptor
deriving DecidableEq, Repr

/-- `ImageWithManifests` from `src/images.rs`. -/
structure ImageWithManifests : Type where
  image : RepositoryImage
  manifests : List ImageManifestWithDescriptor
deriving DecidableEq, Repr

/-- `ResolvedManifest` from `src/images.rs`. -/
structure ResolvedManifest : Type where
  manifest : String
  media_type : String
deriving DecidableEq, Repr

/-- The ECR `batch_get_image` capability: a function from the requested
digest list to the returned `(digest, manifest_text, media_type)` triples.
-/
def Registry : Type := List String → List (String × String × String)

/-- The `serde_json` parser for `ImageManifest` (external). -/
def ManifestParser : Type := String → Option ImageManifest

/-- The `serde_json` parser for `ImageIndex` (external). -/
def IndexParser : Type := String → Option ImageIndex

/-- Insert-with-overwrite on an association list: the model of inserting
into a Rust `HashMap` (a duplicate key keeps its position, its value is
replaced). -/
def insertMap {T : Type} (m : List (String × T)) (k : String) (v : T) :
    List (String × T) :=
  match m with
  | [] => [(k, v)]
  | (k', v') :: rest =>
    if k = k' then (k, v) :: rest else (k', v') :: insertMap rest k v

/-- Build a `HashMap` from a pair iterator by repeated insertion, as Rust
`collect::<HashMap<_,_>>()` does: a later pair with the same key wins. -/
def buildMap {T : Type} (l : List (String × T)) : List (String × T) :=
  l.foldl (fun m kv => insertMap m kv.1 kv.2) []

/-- Lookup in the association-list model of a `HashMap`. -/
def lookupMap {T : Type} (m : List (String × T)) (k : String) : Option T :=
  match m with
  | [] => none
  | (k', v) :: rest => if k = k' then some v else lookupMap rest k

/-- The key list of a map: the digests sent as `ImageIdentifier`s. -/
def mapKeys {T : Type} (m : List (String × T)) : List String :=
  m.map Prod.fst

/-- Fuel-driven core of `dedupFirst` (structural recursion so the kernel
can evaluate it); with fuel at least the list length it keeps the first
occurrence of each element and drops later duplicates. -/
def dedupFirstGo {α : Type} [DecidableEq α] : Nat → List α → List α
  | _, [] => []
  | 0, _ => []
  | fuel + 1, a :: as =>
    a :: dedupFirstGo fuel (as.filter (fun b => b ≠ a))

/-- `itertools`' `.unique()`: keep the first occurrence of each element. -/
def dedupFirst {α : Type} [DecidableEq α] (l : List α) : List α :=
  dedupFirstGo l.length l

/-- Fuel-driven core of `chunksOf` (structural recursion so the kernel
can evaluate it). -/
def chunksGo {α : Type} (n : Nat) : Nat → List α → List (List α)
  | _, [] => []
  | 0, _ => []
  | fuel + 1, l => l.take n :: chunksGo n fuel (l.drop n)

/-- Rust's `slice::chunks(n)`: consecutive chunks of size `n`, the last
possibly shorter.  (`n = 0` panics in Rust; the model returns `[]`.) -/
def chunksOf {α : Type} (n : Nat) (l : List α) : List (List α) :=
  if n = 0 then [] else chunksGo n l.length l

/-- `itertools`' `.into_group_map_by(key)`: groups keyed in
first-occurrence order, each group's elements in original order. -/
def groupPairsBy {α β : Type} [DecidableEq α] (key : β → α) (l : List β) :
    List (α × List β) :=
  (dedupFirst (l.map key)).map (fun k => (k, l.filter (fun b => key b = k)))

/-- Fail-fast effectful map over `Except` (the model of building a `Vec`
inside a fallible loop / `try_collect`): stops at the first error. -/
def mapME {α β : Type} (f : α → Except String β) :
    List α → Except String (List β)
  | [] => .ok []
  | a :: as =>
    match f a with
    | .error e => .error e
    | .ok b =>
      match mapME f as with
      | .error e => .error e
      | .ok bs => .ok (b :: bs)

/-- Whether an `Except` is an error. -/
def isErr {ε α : Type} : Except ε α → Bool
  | .error _ => true
  | .ok _ => false

/-- `ImageFetcher::batch_resolve_image_manifests` from `src/images.rs`:
send the map's keys as identifiers, deduplicate the returned
`(digest, manifest, media_type)` triples, and match each back to the
request map — a digest absent from the map fails the call. -/
def batch_resolve_image_manifests {T : Type} (reg : Registry)
    (digests : List (String × T)) :
    Except String (List (T × String × ResolvedManifest)) :=
  let identifiers := mapKeys digests
  let images := reg identifiers
  let unique_images := dedupFirst images
  mapME (fun t =>
    match lookupMap digests t.1 with
    | some d_value => .ok (d_value, t.1, ⟨t.2.1, t.2.2⟩)
    | none => .error ("Digest " ++ t.1 ++ " not present in map"))
    unique_images

/-- The phase-1 classification loop of
`ImageFetcher::resolve_image_descriptors` (`src/images.rs`), run over the
concatenated chunk results in order: an unrecognized media type is
skipped, `Image` parses the manifest and emits a completed record with no
descriptor, `List` parses the index and defers the image with the index's
descriptor list.  A parse failure aborts. -/
def classify_results (pm : ManifestParser) (pidx : IndexParser) :
    List (RepositoryImage × String × ResolvedManifest) →
    Except String
      (List ImageWithManifests × List (RepositoryImage × List Descriptor))
  | [] => .ok ([], [])
  | (repo_image, _, resolved_manifest) :: rest =>
    match ManifestType.from_str resolved_manifest.media_type with
    | none => classify_results pm pidx rest
    | some ManifestType.Image =>
      match pm resolved_manifest.manifest with
      | none => .error "manifest parse error"
      | some manifest =>
        match classify_results pm pidx rest with
        | .error e => .error e
        | .ok (resolved, deferred) =>
          .ok (⟨repo_image, [⟨manifest, none⟩]⟩ :: resolved, deferred)
    | some ManifestType.List =>
      match pidx resolved_manifest.manifest with
      | none => .error "index parse error"
      | some parsed =>
        match classify_results pm pidx rest with
        | .error e => .error e
        | .ok (resolved, deferred) =>
          .ok (resolved, (repo_image, parsed.manifests) :: deferred)

/-- `ImageFetcher::resolve_image_descriptors` from `src/images.rs`
(phase 1): chunk the image slice by `chunk_size`, build the per-chunk
digest→image map, batch-resolve each chunk, then classify all results. -/
def resolve_image_descriptors (chunk_size : Nat) (reg : Registry)
    (pm : ManifestParser) (pidx : IndexParser)
    (images : List RepositoryImage) :
    Except String
      (List ImageWithManifests × List (RepositoryImage × List Descriptor)) :=
  match mapME (fun chunk =>
      batch_resolve_image_manifests reg
        (buildMap (chunk.map (fun v => (v.manifest_digest, v)))))
      (chunksOf chunk_size images) with
  | .error e => .error e
  | .ok all_results => classify_results pm pidx all_results.flatten

/-- The per-group classification loop of
`ImageFetcher::resolve_image_manifests` (`src/images.rs`): each child must
classify as `Image` (parsed and tagged with its originating descriptor);
a child classifying as `List` is a fatal protocol error; an unrecognized
media type is skipped. -/
def classify_children (pm : ManifestParser) :
    List ((RepositoryImage × Descriptor) × String × ResolvedManifest) →
    Except String (List ImageManifestWithDescriptor)
  | [] => .ok []
  | ((_, descriptor), _, resolved_manifest) :: rest =>
    match ManifestType.from_str resolved_manifest.media_type with
    | some ManifestType.Image =>
      match pm resolved_manifest.manifest with
      | none => .error "manifest parse error"
      | some manifest =>
        match classify_children pm rest with
        | .error e => .error e
        | .ok parsed => .ok (⟨manifest, some descriptor⟩ :: parsed)
    | some ManifestType.List =>
      .error "Manifest list item resolved to another manifest list!"
    | none => classify_children pm rest

/-- `ImageFetcher::resolve_image_manifests` from `src/images.rs`
(phase 2): one batch-resolve call per deferred image, over that image's
descriptor-digest→(image, descriptor) map; results are flattened, grouped
by owning image, and each group is classified into one
`ImageWithManifests`. -/
def resolve_image_manifests (reg : Registry) (pm : ManifestParser)
    (images_with_manifest_lists :
      List (RepositoryImage × List Descriptor)) :
    Except String (List ImageWithManifests) :=
  match mapME (fun p =>
      batch_resolve_image_manifests reg
        (buildMap (p.2.map (fun d => (d.digest, (p.1, d))))))
      images_with_manifest_lists with
  | .error e => .error e
  | .ok all_results =>
    let grouping := groupPairsBy (fun t => t.1.1) all_results.flatten
    mapME (fun g =>
      match classify_children pm g.2 with
      | .error e => .error e
      | .ok parsed => .ok (⟨g.1, parsed⟩ : ImageWithManifests))
      grouping

/-- `ImageFetcher::resolve_images` from `src/images.rs`: phase 1, then
phase 2 when any image deferred to a manifest list, appending phase-2
results after phase-1 results. -/
def resolve_images (chunk_size : Nat) (reg : Registry)
    (pm : ManifestParser) (pidx : IndexParser)
    (images : List RepositoryImage) :
    Except String (List ImageWithManifests) :=
  match resolve_image_descriptors chunk_size reg pm pidx images with
  | .error e => .error e
  | .ok (resolved_images, images_with_manifest_lists) =>
    if images_with_manifest_lists.isEmpty then .ok resolved_images
    else
      match resolve_image_manifests reg pm images_with_manifest_lists with
      | .error e => .error e
      | .ok manifest_list_resolved =>
        .ok (resolved_images ++ manifest_list_resolved)

/-- The digest lists of the phase-1 batch requests: one request per chunk,
holding the chunk map's keys. -/
def phase1Requests (chunk_size : Nat) (images : List RepositoryImage) :
    List (List String) :=
  (chunksOf chunk_size images).map (fun chunk =>
    mapKeys (buildMap (chunk.map (fun v => (v.manifest_digest, v)))))

/-- The digest lists of the phase-2 batch requests: one request per
deferred image, holding that image's descriptor map's keys. -/
def phase2Requests
    (images_with_manifest_lists :
      List (RepositoryImage × List Descriptor)) :
    List (List String) :=
  images_with_manifest_lists.map (fun p =>
    mapKeys (buildMap (p.2.map (fun d => (d.digest, (p.1, d))))))

/-- The per-candidate selection of `RepositoryLister::list`
(`src/repos.rs`): with no filters configured, include; otherwise include
when the include matcher matches, otherwise include when the exclude
matcher does not match, otherwise drop.  Glob matchers (external
`globset`) are modelled as boolean predicates. -/
def repo_select (include_filter exclude_filter : Option (String → Bool))
    (name : String) : Option String :=
  if include_filter.isNone && exclude_filter.isNone then some name
  else if (match include_filter with
           | some f => f name
           | none => false) then some name
  else if (match exclude_filter with
           | some f => !f name
           | none => false) then some name
  else none

/-- `RepositoryLister::list` from `src/repos.rs`, applied to the names the
registry returned: filter each candidate by `repo_select`, then sort
(`itertools::sorted`; any correct sort of strings yields this list). -/
def RepositoryLister_list
    (include_filter exclude_filter : Option (String → Bool))
    (names : List String) : List String :=
  (names.filterMap (repo_select include_filter exclude_filter)).insertionSort
    (· ≤ ·)

/-- The fields of an AWS `ImageDetail` that
`RepositoryImage::from_image_detail` reads; every field is optional in the
SDK type. -/
structure ImageDetail : Type where
  repository_name : Option String
  image_digest : Option String
  image_manifest_media_type : Option String
  image_tags : Option (List String)
  image_pushed_at : Option Int
  last_recorded_pull_time : Option Int
deriving DecidableEq, Repr

/-- `RepositoryImage::from_image_detail` from `src/images.rs`: `None`
when the media type is absent or unrecognized, or when the repository
name, digest, or push timestamp is absent; tags default to `[]`; the
last-pull time stays optional. -/
def RepositoryImage.from_image_detail (detail : ImageDetail) :
    Option RepositoryImage :=
  match detail.image_manifest_media_type with
  | none => none
  | some media_type_str =>
    match ManifestType.from_str media_type_str with
    | none => none
    | some manifest_type =>
      match detail.repository_name, detail.image_digest,
          detail.image_pushed_at with
      | some rn, some dg, some pushed =>
        some ⟨rn, dg, manifest_type, detail.image_tags.getD [], pushed,
          detail.last_recorded_pull_time⟩
      | _, _, _ => none

/-- The pure tail of `ImageFetcher::fetch_images` (`src/images.rs`): the
collected page items filtered through `from_image_detail`
(`filter_map`). -/
def fetch_images_keep (details : List ImageDetail) :
    List RepositoryImage :=
  details.filterMap RepositoryImage.from_image_detail

/-! ## Concrete fixtures used by counterexamples and witnesses -/

/-- The OCI image-manifest media type string. -/
def mtImageStr : String := "application/vnd.oci.image.manifest.v1+json"

/-- The OCI image-index media type string. -/
def mtIndexStr : String := "application/vnd.oci.image.index.v1+json"

/-- Two distinct tagged images sharing one manifest digest. -/
def img1 : RepositoryImage :=
  ⟨"repo", "sha256:d", .Image, ["t1"], 0, none⟩

/-- Second image with the same digest as `img1` but a different tag. -/
def img2 : RepositoryImage :=
  ⟨"repo", "sha256:d", .Image, ["t2"], 0, none⟩

/-- A manifest-list image whose index turns out to be empty. -/
def img3 : RepositoryImage := ⟨"repo", "dL", .List, [], 0, none⟩

/-- Deferred manifest-list images used by phase-2 fixtures. -/
def imgL1 : RepositoryImage := ⟨"repo", "dL1", .List, [], 0, none⟩

/-- Second deferred manifest-list image. -/
def imgL2 : RepositoryImage := ⟨"repo", "dL2", .List, [], 0, none⟩

/-- A child descriptor with digest `dd`. -/
def descA : Descriptor := ⟨"dd", mtImageStr, 1, none⟩

/-- Three child descriptors with distinct digests. -/
def desc1 : Descriptor := ⟨"da", mtImageStr, 1, none⟩

/-- Second of three distinct child descriptors. -/
def desc2 : Descriptor := ⟨"db", mtImageStr, 1, none⟩

/-- Third of three distinct child descriptors. -/
def desc3 : Descriptor := ⟨"dc", mtImageStr, 1, none⟩

/-- A registry that resolves `sha256:d` to an image manifest `M`. -/
def reg1 : Registry := fun ids =>
  if "sha256:d" ∈ ids then [("sha256:d", "M", mtImageStr)] else []

/-- A registry that resolves `dL` to an (empty) image index `IDX`. -/
def regL : Registry := fun ids =>
  if "dL" ∈ ids then [("dL", "IDX", mtIndexStr)] else []

/-- A registry that returns an unrecognized media type for `sha256:d`. -/
def regW : Registry := fun ids =>
  if "sha256:d" ∈ ids then [("sha256:d", "M", "weird/type")] else []

/-- A registry that resolves child digest `dd` to an image index: a
manifest-list item resolving to another list. -/
def regIdx : Registry := fun ids =>
  if "dd" ∈ ids then [("dd", "IDX", mtIndexStr)] else []

/-- A registry that answers with a digest that was never requested. -/
def regBad : Registry := fun _ => [("zzz", "m", "w")]

/-- A registry that answers only for digest `a` (partial response). -/
def regPart : Registry := fun _ => [("a", "ma", "w")]

/-- A manifest parser that accepts everything (wraps the raw text). -/
def pm1 : ManifestParser := fun s => some ⟨s⟩

/-- An index parser that accepts nothing. -/
def pidx1 : IndexParser := fun _ => none

/-- An index parser mapping `IDX` to the empty index. -/
def pidxL : IndexParser := fun s => if s = "IDX" then some ⟨[]⟩ else none

/-- The glob matcher for `prod-*`, modelled from the spec: shell-style
glob whose `*` matches any suffix, i.e. a prefix test (the `globset`
crate is an external collaborator). -/
def prodStar : String → Bool := fun s => List.isPrefixOf "prod-".data s.data

/-- Image-kind fixture with digest `d1`. -/
def imgA : RepositoryImage := ⟨"repo", "d1", .Image, ["a"], 0, none⟩

/-- List-kind fixture with digest `d2`. -/
def imgB : RepositoryImage := ⟨"repo", "d2", .List, ["b"], 0, none⟩

/-- A pointwise manifest-text oracle. -/
def manF : String → String := fun dg => "man-" ++ dg

/-- A pointwise media-type oracle: digest `d2` is an index, the rest are
image manifests. -/
def mtF : String → String := fun dg =>
  if dg = "d2" then mtIndexStr else mtImageStr

/-- A well-behaved registry answering each requested digest exactly once
via the pointwise oracles. -/
def regP : Registry := fun ids => ids.map (fun dg => (dg, manF dg, mtF dg))

/-- An index parser mapping `d2`'s manifest text to the two-descriptor
index over `da` and `db`. -/
def pidxP : IndexParser := fun s =>
  if s = manF "d2" then some ⟨[desc1, desc2]⟩ else none

/-- The glob matcher for the literal pattern `prod-test`. -/
def prodTestGlob : String → Bool := fun s => s = "prod-test"

/-! ## Basic lemmas about the list-machinery models -/

theorem dedupFirstGo_congr {α : Type} [DecidableEq α] (f₁ f₂ : Nat)
    (l : List α) (h₁ : l.length ≤ f₁) (h₂ : l.length ≤ f₂) :
    dedupFirstGo f₁ l = dedupFirstGo f₂ l := by
  induction f₁ generalizing f₂ l with
  | zero =>
    have hl : l = [] := by cases l <;> simp_all
    subst hl; cases f₂ <;> rfl
  | succ f ih =>
    cases l with
    | nil => cases f₂ <;> rfl
    | cons a as =>
      cases f₂ with
      | zero => simp at h₂
      | succ g =>
        simp only [dedupFirstGo]
        congr 1
        have hf := List.length_filter_le (fun b => decide (b ≠ a)) as
        simp only [List.length_cons] at h₁ h₂
        exact ih _ _ (by omega) (by omega)

theorem dedupFirst_nil {α : Type} [DecidableEq α] :
    dedupFirst ([] : List α) = [] := rfl

theorem dedupFirst_cons {α : Type} [DecidableEq α] (a : α) (as : List α) :
    dedupFirst (a :: as) = a :: dedupFirst (as.filter (fun b => b ≠ a)) := by
  simp only [dedupFirst, List.length_cons, dedupFirstGo]
  congr 1
  exact dedupFirstGo_congr _ _ _
    (List.length_filter_le _ _) (le_of_eq rfl)

theorem chunksGo_congr {α : Type} (n : Nat) (hn : 0 < n) (f₁ f₂ : Nat)
    (l : List α) (h₁ : l.length ≤ f₁) (h₂ : l.length ≤ f₂) :
    chunksGo n f₁ l = chunksGo n f₂ l := by
  induction f₁ generalizing f₂ l with
  | zero =>
    have hl : l = [] := by cases l <;> simp_all
    subst hl; cases f₂ <;> rfl
  | succ f ih =>
    cases l with
    | nil => cases f₂ <;> rfl
    | cons a as =>
      cases f₂ with
      | zero => simp at h₂
      | succ g =>
        simp only [chunksGo]
        congr 1
        have hd : ((a :: as).drop n).length = (a :: as).length - n :=
          List.length_drop _ _
        simp only [List.length_cons] at h₁ h₂ hd
        exact ih _ _ (by omega) (by omega)

theorem chunksOf_nil {α : Type} (n : Nat) : chunksOf n ([] : List α) = [] := by
  unfold chunksOf
  split <;> rfl

theorem chunksOf_eq {α : Type} (n : Nat) (hn : 0 < n) (l : List α)
    (hl : l ≠ []) :
    chunksOf n l = l.take n :: chunksOf n (l.drop n) := by
  cases l with
  | nil => exact absurd rfl hl
  | cons a as =>
    simp only [chunksOf, if_neg (Nat.pos_iff_ne_zero.mp hn), List.length_cons,
      chunksGo]
    congr 1
    refine chunksGo_congr n hn _ _ _ ?_ (le_of_eq rfl)
    simp only [List.length_drop, List.length_cons]
    omega

theorem chunksOf_flatten {α : Type} (n : Nat) (hn : 0 < n) (l : List α) :
    (chunksOf n l).flatten = l := by
  generalize hN : l.length = N
  induction N using Nat.strong_induction_on generalizing l with
  | _ N ih =>
    cases l with
    | nil => simp [chunksOf_nil]
    | cons a as =>
      rw [chunksOf_eq n hn _ (by simp)]
      simp only [List.flatten_cons]
      rw [ih (((a :: as).drop n).length) ?_ _ rfl]
      · exact List.take_append_drop n (a :: as)
      · simp only [List.length_drop, List.length_cons] at hN ⊢
        omega

theorem chunksOf_sublist {α : Type} (n : Nat) (hn : 0 < n) (l : List α) :
    ∀ c ∈ chunksOf n l, c.Sublist l := by
  generalize hN : l.length = N
  induction N using Nat.strong_induction_on generalizing l with
  | _ N ih =>
    cases l with
    | nil => simp [chunksOf_nil]
    | cons a as =>
      rw [chunksOf_eq n hn _ (by simp)]
      intro c hc
      rcases List.mem_cons.mp hc with h | h
      · exact h ▸ List.take_sublist n (a :: as)
      · have hrec := ih (((a :: as).drop n).length) ?_ _ rfl c h
        · exact hrec.trans (List.drop_sublist n (a :: as))
        · simp only [List.length_drop, List.length_cons] at hN ⊢
          omega

theorem chunksOf_single {α : Type} (n : Nat) (hn : 0 < n) (l : List α)
    (hl : l ≠ []) (hlen : l.length ≤ n) : chunksOf n l = [l] := by
  rw [chunksOf_eq n hn l hl, List.take_of_length_le hlen,
    List.drop_eq_nil_of_le hlen, chunksOf_nil]

theorem mem_dedupFirst {α : Type} [DecidableEq α] (a : α) (l : List α) :
    a ∈ dedupFirst l ↔ a ∈ l := by
  generalize hN : l.length = N
  induction N using Nat.strong_induction_on generalizing l with
  | _ N ih =>
    cases l with
    | nil => simp [dedupFirst_nil]
    | cons x xs =>
      rw [dedupFirst_cons]
      have hrec := ih ((xs.filter (fun b => b ≠ x)).length) ?_
        (xs.filter (fun b => b ≠ x)) rfl
      · rw [List.mem_cons, List.mem_cons, hrec, List.mem_filter]
        by_cases hax : a = x
        · simp [hax]
        · simp [hax]
      · have := List.length_filter_le (fun b => decide (b ≠ x)) xs
        simp only [List.length_cons] at hN
        omega

theorem dedupFirst_nodup {α : Type} [DecidableEq α] (l : List α) :
    (dedupFirst l).Nodup := by
  generalize hN : l.length = N
  induction N using Nat.strong_induction_on generalizing l with
  | _ N ih =>
    cases l with
    | nil => simp [dedupFirst_nil]
    | cons x xs =>
      rw [dedupFirst_cons]
      have hlen : (xs.filter (fun b => b ≠ x)).length < N := by
        have := List.length_filter_le (fun b => decide (b ≠ x)) xs
        simp only [List.length_cons] at hN
        omega
      refine List.nodup_cons.mpr ⟨?_, ih _ hlen _ rfl⟩
      rw [mem_dedupFirst]
      intro hmem
      have := (List.mem_filter.mp hmem).2
      simp at this

theorem dedupFirst_eq_self {α : Type} [DecidableEq α] (l : List α)
    (h : l.Nodup) : dedupFirst l = l := by
  induction l with
  | nil => rfl
  | cons x xs ih =>
    rw [dedupFirst_cons]
    have hx : x ∉ xs := (List.nodup_cons.mp h).1
    have hfilter : xs.filter (fun b => b ≠ x) = xs := by
      apply List.filter_eq_self.mpr
      intro b hb
      simp only [ne_eq, decide_eq_true_eq]
      intro hbx
      exact hx (hbx ▸ hb)
    rw [hfilter, ih (List.nodup_cons.mp h).2]

theorem mapME_ok_of_forall {α β : Type} (f : α → Except String β)
    (g : α → β) (l : List α) (h : ∀ x ∈ l, f x = .ok (g x)) :
    mapME f l = .ok (l.map g) := by
  induction l with
  | nil => rfl
  | cons a as ih =>
    simp only [mapME, h a (List.mem_cons_self a as),
      ih (fun x hx => h x (List.mem_cons_of_mem a hx)), List.map_cons]

theorem mapME_isErr_of_mem {α β : Type} (f : α → Except String β)
    (l : List α) (x : α) (hx : x ∈ l) (herr : isErr (f x) = true) :
    isErr (mapME f l) = true := by
  induction l with
  | nil => simp at hx
  | cons a as ih =>
    simp only [mapME]
    cases hfa : f a with
    | error e => rfl
    | ok b =>
      rcases List.mem_cons.mp hx with rfl | hmem
      · rw [hfa] at herr; simp [isErr] at herr
      · have := ih hmem
        cases hrest : mapME f as with
        | error e => rfl
        | ok bs => rw [hrest] at this; simp [isErr] at this

theorem mapME_ok_mem {α β : Type} (f : α → Except String β)
    (l : List α) (ys : List β) (h : mapME f l = .ok ys) (x : α)
    (hx : x ∈ l) : ∃ y, f x = .ok y ∧ y ∈ ys := by
  induction l generalizing ys with
  | nil => simp at hx
  | cons a as ih =>
    simp only [mapME] at h
    cases hfa : f a with
    | error e => rw [hfa] at h; exact absurd h (by simp)
    | ok b =>
      rw [hfa] at h
      cases hrest : mapME f as with
      | error e => rw [hrest] at h; exact absurd h (by simp)
      | ok bs =>
        rw [hrest] at h
        have hys : ys = b :: bs := by
          cases h; rfl
        subst hys
        rcases List.mem_cons.mp hx with rfl | hmem
        · exact ⟨b, hfa, List.mem_cons_self _ _⟩
        · obtain ⟨y, hy1, hy2⟩ := ih bs hrest hmem
          exact ⟨y, hy1, List.mem_cons_of_mem _ hy2⟩

theorem mapME_ok_length {α β : Type} (f : α → Except String β)
    (l : List α) (ys : List β) (h : mapME f l = .ok ys) :
    ys.length = l.length := by
  induction l generalizing ys with
  | nil => cases h; rfl
  | cons a as ih =>
    simp only [mapME] at h
    cases hfa : f a with
    | error e => rw [hfa] at h; exact absurd h (by simp)
    | ok b =>
      rw [hfa] at h
      cases hrest : mapME f as with
      | error e => rw [hrest] at h; exact absurd h (by simp)
      | ok bs =>
        rw [hrest] at h
        have hys : ys = b :: bs := by cases h; rfl
        subst hys
        simp [ih bs hrest]

theorem mapME_ok_of_forall_exists {α β : Type} (f : α → Except String β)
    (l : List α) (h : ∀ x ∈ l, ∃ y, f x = .ok y) :
    ∃ ys, mapME f l = .ok ys ∧ ys.length = l.length ∧
      ∀ y ∈ ys, ∃ x ∈ l, f x = .ok y := by
  induction l with
  | nil => exact ⟨[], rfl, rfl, by simp⟩
  | cons a as ih =>
    obtain ⟨b, hb⟩ := h a (List.mem_cons_self a as)
    obtain ⟨bs, hbs, hlen, hmem⟩ :=
      ih (fun x hx => h x (List.mem_cons_of_mem a hx))
    refine ⟨b :: bs, ?_, by simp [hlen], ?_⟩
    · simp only [mapME, hb, hbs]
    · intro y hy
      rcases List.mem_cons.mp hy with rfl | hmem2
      · exact ⟨a, List.mem_cons_self _ _, hb⟩
      · obtain ⟨x, hx1, hx2⟩ := hmem y hmem2
        exact ⟨x, List.mem_cons_of_mem _ hx1, hx2⟩

theorem mapKeys_insertMap {T : Type} (m : List (String × T)) (k : String)
    (v : T) :
    mapKeys (insertMap m k v) =
      if k ∈ mapKeys m then mapKeys m else mapKeys m ++ [k] := by
  induction m with
  | nil => simp [insertMap, mapKeys]
  | cons p rest ih =>
    obtain ⟨k', v'⟩ := p
    by_cases hk : k = k'
    · subst hk
      simp [insertMap, mapKeys]
    · simp only [insertMap, if_neg hk, mapKeys, List.map_cons] at ih ⊢
      rw [ih]
      by_cases hmem : k ∈ List.map Prod.fst rest
      · simp [hmem, hk]
      · simp [hmem, hk]

theorem mapKeys_foldl_insert {T : Type} (l : List (String × T))
    (acc : List (String × T)) :
    mapKeys (l.foldl (fun m kv => insertMap m kv.1 kv.2) acc) =
      mapKeys acc ++
        dedupFirst ((mapKeys l).filter (fun k => k ∉ mapKeys acc)) := by
  induction l generalizing acc with
  | nil => simp [mapKeys, dedupFirst_nil]
  | cons kv rest ih =>
    simp only [List.foldl_cons]
    rw [ih, mapKeys_insertMap]
    by_cases hmem : kv.1 ∈ mapKeys acc
    · rw [if_pos hmem]
      have hskip : (mapKeys (kv :: rest)).filter
          (fun k => k ∉ mapKeys acc) =
          (mapKeys rest).filter (fun k => k ∉ mapKeys acc) := by
        simp only [mapKeys, List.map_cons, List.filter_cons]
        rw [if_neg (by simp only [decide_eq_true_eq]; exact not_not_intro hmem)]
      rw [hskip]
    · rw [if_neg hmem]
      have hfe : (mapKeys rest).filter
          (fun k => k ∉ mapKeys acc ++ [kv.1]) =
          ((mapKeys rest).filter (fun k => k ∉ mapKeys acc)).filter
            (fun b => b ≠ kv.1) := by
        rw [List.filter_filter]
        apply List.filter_congr
        intro a _
        by_cases h1 : a ∈ mapKeys acc
        · simp [h1]
        · by_cases h2 : a = kv.1 <;> simp [h1, h2]
      have hcons : (mapKeys (kv :: rest)).filter
          (fun k => k ∉ mapKeys acc) =
          kv.1 :: (mapKeys rest).filter (fun k => k ∉ mapKeys acc) := by
        simp only [mapKeys, List.map_cons, List.filter_cons]
        rw [if_pos (by simp only [decide_eq_true_eq]; exact hmem)]
      rw [hfe, hcons, dedupFirst_cons]
      simp [List.append_assoc]

theorem mapKeys_buildMap {T : Type} (l : List (String × T)) :
    mapKeys (buildMap l) = dedupFirst (mapKeys l) := by
  unfold buildMap
  rw [mapKeys_foldl_insert]
  have h1 : mapKeys ([] : List (String × T)) = [] := rfl
  simp only [h1, List.nil_append]
  have h2 : (mapKeys l).filter (fun k => k ∉ ([] : List String)) =
      (mapKeys l).filter (fun _ => true) := by
    apply List.filter_congr
    intro a _
    simp
  rw [h2, List.filter_true]

theorem buildMap_keys_nodup {T : Type} (l : List (String × T)) :
    (mapKeys (buildMap l)).Nodup := by
  rw [mapKeys_buildMap]
  exact dedupFirst_nodup _

theorem insertMap_of_not_mem {T : Type} (m : List (String × T))
    (k : String) (v : T) (h : k ∉ mapKeys m) :
    insertMap m k v = m ++ [(k, v)] := by
  induction m with
  | nil => rfl
  | cons p rest ih =>
    obtain ⟨k', v'⟩ := p
    simp only [mapKeys, List.map_cons, List.mem_cons] at h
    push_neg at h
    simp only [insertMap, if_neg h.1, List.cons_append]
    rw [ih h.2]

theorem buildMap_eq_self {T : Type} (l : List (String × T))
    (h : (mapKeys l).Nodup) : buildMap l = l := by
  suffices haux : ∀ (acc : List (String × T)),
      (∀ k ∈ mapKeys l, k ∉ mapKeys acc) → (mapKeys l).Nodup →
      l.foldl (fun m kv => insertMap m kv.1 kv.2) acc = acc ++ l by
    simpa using haux [] (by simp [mapKeys]) h
  clear h
  induction l with
  | nil => intro acc _ _; simp
  | cons kv rest ih =>
    intro acc hdis hnd
    simp only [List.foldl_cons]
    rw [insertMap_of_not_mem _ _ _ (hdis kv.1 (by simp [mapKeys]))]
    have hnd2 : (mapKeys (kv :: rest)).Nodup := hnd
    simp only [mapKeys, List.map_cons, List.nodup_cons] at hnd2
    rw [ih (acc ++ [(kv.1, kv.2)]) ?_ hnd2.2]
    · simp
    · intro k hk
      simp only [mapKeys, List.map_append, List.mem_append] at hk ⊢
      push_neg
      constructor
      · exact hdis k (by simp [mapKeys, hk])
      · simp only [List.map_cons, List.map_nil, List.mem_singleton]
        intro hkk
        exact hnd2.1 (hkk ▸ hk)

theorem lookupMap_eq_some_of_mem_nodup {T : Type} (l : List (String × T))
    (h : (mapKeys l).Nodup) (k : String) (v : T) (hmem : (k, v) ∈ l) :
    lookupMap l k = some v := by
  induction l with
  | nil => simp at hmem
  | cons p rest ih =>
    obtain ⟨k', v'⟩ := p
    simp only [mapKeys, List.map_cons, List.nodup_cons] at h
    rcases List.mem_cons.mp hmem with heq | hmem2
    · rw [Prod.mk.injEq] at heq
      obtain ⟨rfl, rfl⟩ := heq
      simp [lookupMap]
    · have hk : k ≠ k' := by
        intro hkk
        subst hkk
        exact h.1 (List.mem_map.mpr ⟨(k, v), hmem2, rfl⟩)
      simp only [lookupMap, if_neg hk]
      exact ih h.2 hmem2

theorem mem_of_lookupMap_eq_some {T : Type} (l : List (String × T))
    (k : String) (v : T) (h : lookupMap l k = some v) : (k, v) ∈ l := by
  induction l with
  | nil => simp [lookupMap] at h
  | cons p rest ih =>
    obtain ⟨k', v'⟩ := p
    by_cases hk : k = k'
    · subst hk
      have h2 : some v' = some v := by simpa [lookupMap] using h
      cases h2
      exact List.mem_cons_self _ _
    · simp only [lookupMap, if_neg hk] at h
      exact List.mem_cons_of_mem _ (ih h)

theorem lookupMap_isSome_iff {T : Type} (l : List (String × T))
    (k : String) : (lookupMap l k).isSome = true ↔ k ∈ mapKeys l := by
  induction l with
  | nil => simp [lookupMap, mapKeys]
  | cons p rest ih =>
    obtain ⟨k', v'⟩ := p
    by_cases hk : k = k'
    · subst hk
      simp [lookupMap, mapKeys]
    · simp only [lookupMap, if_neg hk, mapKeys, List.map_cons,
        List.mem_cons]
      rw [ih]
      simp [mapKeys, hk]

theorem foldl_insert_const_key {T : Type} (d : String) :
    ∀ (l : List (String × T)) (v : T), (∀ p ∈ l, p.1 = d) →
      l.foldl (fun m kv => insertMap m kv.1 kv.2) [(d, v)] =
        [(d, (l.getLastD (d, v)).2)] := by
  intro l
  induction l with
  | nil => intro v _; simp
  | cons kv rest ih =>
    intro v h
    simp only [List.foldl_cons]
    have hkv : kv.1 = d := h kv (List.mem_cons_self _ _)
    have hins : insertMap [(d, v)] kv.1 kv.2 = [(d, kv.2)] := by
      simp [insertMap, hkv]
    rw [hins, ih kv.2 (fun p hp => h p (List.mem_cons_of_mem _ hp))]
    rw [List.getLastD_cons]
    cases rest with
    | nil => simp [List.getLastD]
    | cons r rs =>
      obtain ⟨x, hx⟩ := Option.isSome_iff_exists.mp
        (List.getLast?_isSome.mpr (by simp : (r :: rs) ≠ []))
      simp [List.getLastD_eq_getLast?, hx]

theorem buildMap_const_key {T : Type} (d : String) (l : List (String × T))
    (h : ∀ p ∈ l, p.1 = d) (q : String × T) (hlast : l.getLast? = some q) :
    buildMap l = [(d, q.2)] := by
  cases l with
  | nil => simp at hlast
  | cons p₀ rest =>
    have hp₀ : p₀.1 = d := h p₀ (List.mem_cons_self _ _)
    unfold buildMap
    simp only [List.foldl_cons]
    have hins : insertMap [] p₀.1 p₀.2 = [(d, p₀.2)] := by
      simp [insertMap, hp₀]
    rw [hins, foldl_insert_const_key d rest p₀.2
      (fun p hp => h p (List.mem_cons_of_mem _ hp))]
    cases rest with
    | nil =>
      simp only [List.getLast?_singleton, Option.some.injEq] at hlast
      subst hlast
      simp [List.getLastD]
    | cons r rs =>
      have h2 : (r :: rs).getLast? = some q := by
        rw [← List.getLast?_cons_cons]
        exact hlast
      rw [List.getLastD_eq_getLast?, h2]
      simp

/-! ## Claim theorems -/

/-- C2 counterexample: two deferred images whose single descriptors share
digest `dd` produce two separate batch requests, each asking for `dd` —
the mappings are not merged into one combined, deduplicated request set;
and one deferred image with three descriptors produces a single request
with all three digests, not chunks bounded by the phase-1 batch limit
(phase 2 takes no chunk size at all). -/
theorem C2_counterexample :
    phase2Requests [(imgL1, [descA]), (imgL2, [descA])] =
      [["dd"], ["dd"]] ∧
    phase2Requests [(imgL1, [desc1, desc2, desc3])] =
      [["da", "db", "dc"]] := by
  exact ⟨rfl, rfl⟩

/-- C2 amended: in phase 2 the digest→(image, descriptor) mappings are
not merged across deferred images; one batch request is issued per
deferred image, containing exactly that image's descriptor digests
deduplicated within the image (in first-occurrence order), with no
chunking by the batch limit. -/
theorem C2_amended (dls : List (RepositoryImage × List Descriptor)) :
    phase2Requests dls =
      dls.map (fun p => dedupFirst (p.2.map Descriptor.digest)) := by
  unfold phase2Requests
  apply List.map_congr_left
  intro p _
  rw [mapKeys_buildMap]
  congr 1
  rw [show mapKeys (p.2.map (fun d => (d.digest, (p.1, d)))) =
    (p.2.map (fun d => (d.digest, (p.1, d)))).map Prod.fst from rfl]
  rw [List.map_map]
  rfl

/-- C7 counterexample: the registry answers the phase-1 batch request for
`sha256:d` with an unrecognized media type `weird/type`, yet resolution
succeeds with an empty result set — the entry is silently dropped, not
rejected with a protocol error. -/
theorem C7_counterexample :
    regW ["sha256:d"] = [("sha256:d", "M", "weird/type")] ∧
    ManifestType.from_str "weird/type" = none ∧
    resolve_images 100 regW pm1 pidx1 [img1] = .ok [] := by
  exact ⟨rfl, rfl, rfl⟩

/-- C7 amended: a batch-response entry whose media type is not one of the
recognized kinds is silently skipped by both the phase-1 classification
(`resolve_image_descriptors`) and the phase-2 classification
(`resolve_image_manifests`): classification of the remaining entries
proceeds as if the entry were absent, and no error is raised for it. -/
theorem C7_amended (pm : ManifestParser) (pidx : IndexParser)
    (img : RepositoryImage) (dig : String) (rm : ResolvedManifest)
    (rest1 : List (RepositoryImage × String × ResolvedManifest))
    (e : (RepositoryImage × Descriptor) × String × ResolvedManifest)
    (rest2 : List ((RepositoryImage × Descriptor) × String ×
      ResolvedManifest))
    (h1 : ManifestType.from_str rm.media_type = none)
    (h2 : ManifestType.from_str e.2.2.media_type = none) :
    classify_results pm pidx ((img, dig, rm) :: rest1) =
      classify_results pm pidx rest1 ∧
    classify_children pm (e :: rest2) = classify_children pm rest2 := by
  obtain ⟨⟨i2, d2⟩, s2, rm2⟩ := e
  constructor
  · simp only [classify_results, h1]
  · simp only [classify_children]
    simp only at h2
    rw [h2]

/-- C7 witness: a concrete unrecognized-media-type entry is skipped by
both classification phases. -/
theorem C7_amended_witness :
    ManifestType.from_str "weird/type" = none ∧
    (classify_results pm1 pidx1
        [(img1, "sha256:d", ⟨"M", "weird/type"⟩)] =
      classify_results pm1 pidx1 [] ∧
    classify_children pm1 [((img1, descA), "dd", ⟨"M", "weird/type"⟩)] =
      classify_children pm1 []) :=
  ⟨rfl, C7_amended pm1 pidx1 img1 "sha256:d" ⟨"M", "weird/type"⟩ []
    ((img1, descA), "dd", ⟨"M", "weird/type"⟩) [] rfl rfl⟩

/-- C8: if the deduplicated batch response contains a digest that is not
a key of the request map, the batch call returns an error. -/
theorem C8_unrequested_digest_fails {T : Type} (reg : Registry)
    (m : List (String × T)) (t : String × String × String)
    (ht : t ∈ dedupFirst (reg (mapKeys m)))
    (hmiss : lookupMap m t.1 = none) :
    isErr (batch_resolve_image_manifests reg m) = true := by
  unfold batch_resolve_image_manifests
  apply mapME_isErr_of_mem _ _ t ht
  simp only [hmiss, isErr]

/-- C8 witness: a registry returning the never-requested digest `zzz`
makes the batch call fail. -/
theorem C8_witness :
    ("zzz", "m", "w") ∈
      dedupFirst (regBad (mapKeys [("a", (0 : Nat))])) ∧
    lookupMap [("a", (0 : Nat))] "zzz" = none ∧
    isErr (batch_resolve_image_manifests regBad [("a", (0 : Nat))]) =
      true := by
  refine ⟨?_, rfl, ?_⟩
  · exact List.mem_singleton.mpr rfl
  · exact C8_unrequested_digest_fails regBad [("a", (0 : Nat))]
      ("zzz", "m", "w") (List.mem_singleton.mpr rfl) rfl

/-- C9: when every digest of the (deduplicated) response is present in
the request map but the response covers fewer digests than were
requested, the batch call still succeeds, returns one result per
response entry (keyed by the response digests only), and raises no error
for the absent digests. -/
theorem C9_partial_response_succeeds {T : Type} (reg : Registry)
    (m : List (String × T))
    (hall : ∀ t ∈ dedupFirst (reg (mapKeys m)),
      (lookupMap m t.1).isSome = true)
    (hfewer : (dedupFirst (reg (mapKeys m))).length <
      (mapKeys m).length) :
    ∃ rs, batch_resolve_image_manifests reg m = .ok rs ∧
      rs.length = (dedupFirst (reg (mapKeys m))).length ∧
      ∀ r ∈ rs, ∃ t ∈ dedupFirst (reg (mapKeys m)), r.2.1 = t.1 := by
  unfold batch_resolve_image_manifests
  have hex : ∀ t ∈ dedupFirst (reg (mapKeys m)), ∃ y,
      (match lookupMap m t.1 with
        | some d_value =>
          Except.ok (d_value, t.1, (⟨t.2.1, t.2.2⟩ : ResolvedManifest))
        | none =>
          Except.error ("Digest " ++ t.1 ++ " not present in map")) =
        Except.ok y := by
    intro t ht
    rcases hsome : lookupMap m t.1 with _ | v
    · have := hall t ht
      rw [hsome] at this
      simp at this
    · exact ⟨(v, t.1, ⟨t.2.1, t.2.2⟩), rfl⟩
  obtain ⟨ys, h1, h2, h3⟩ := mapME_ok_of_forall_exists _ _ hex
  refine ⟨ys, h1, h2, ?_⟩
  intro r hr
  obtain ⟨t, ht, hft⟩ := h3 r hr
  refine ⟨t, ht, ?_⟩
  rcases hsome : lookupMap m t.1 with _ | v
  · have := hall t ht
    rw [hsome] at this
    simp at this
  · rw [hsome] at hft
    cases hft
    rfl

/-- C9 witness: requesting `a` and `b` but receiving only `a` succeeds
with a single result for `a` and no error for `b`. -/
theorem C9_witness :
    (∀ t ∈ dedupFirst (regPart (mapKeys [("a", (0 : Nat)), ("b", 1)])),
      (lookupMap [("a", (0 : Nat)), ("b", 1)] t.1).isSome = true) ∧
    (dedupFirst (regPart (mapKeys [("a", (0 : Nat)), ("b", 1)]))).length <
      (mapKeys [("a", (0 : Nat)), ("b", 1)]).length ∧
    ∃ rs, batch_resolve_image_manifests regPart
        [("a", (0 : Nat)), ("b", 1)] = .ok rs ∧
      rs.length = (dedupFirst (regPart
        (mapKeys [("a", (0 : Nat)), ("b", 1)]))).length ∧
      ∀ r ∈ rs, ∃ t ∈ dedupFirst (regPart
        (mapKeys [("a", (0 : Nat)), ("b", 1)])), r.2.1 = t.1 := by
  refine ⟨?_, ?_, ?_⟩
  · decide
  · decide
  · exact C9_partial_response_succeeds regPart
      [("a", (0 : Nat)), ("b", 1)] (by decide) (by decide)

/-- C10: a raw image detail becomes a `RepositoryImage` exactly when its
manifest media type is present and recognized and its repository name,
digest, and push timestamp are present; a detail failing any of these is
silently omitted from the discovered set by `fetch_images`' filter-map
(no error). -/
theorem C10_from_image_detail_fields (d : ImageDetail)
    (details : List ImageDetail) :
    ((RepositoryImage.from_image_detail d).isSome = true ↔
      ((∃ mts, d.image_manifest_media_type = some mts ∧
        (ManifestType.from_str mts).isSome = true) ∧
       d.repository_name.isSome = true ∧ d.image_digest.isSome = true ∧
       d.image_pushed_at.isSome = true)) ∧
    (RepositoryImage.from_image_detail d = none →
      fetch_images_keep (d :: details) = fetch_images_keep details) := by
  constructor
  · unfold RepositoryImage.from_image_detail
    cases hm : d.image_manifest_media_type with
    | none => simp [hm]
    | some mts =>
      cases hf : ManifestType.from_str mts with
      | none => simp [hm, hf]
      | some t =>
        cases hr : d.repository_name <;> cases hd : d.image_digest <;>
          cases hp : d.image_pushed_at <;> simp [hm, hf, hr, hd, hp]
  · intro h
    simp [fetch_images_keep, List.filterMap_cons, h]

/-- C10 witness: a detail with a recognized media type but no digest is
dropped without an error. -/
theorem C10_witness :
    (RepositoryImage.from_image_detail
      ⟨some "r", none, some mtImageStr, none, some 0, none⟩).isSome =
        false ∧
    fetch_images_keep
      [⟨some "r", none, some mtImageStr, none, some 0, none⟩] =
      fetch_images_keep [] := by
  refine ⟨rfl, ?_⟩
  exact (C10_from_image_detail_fields
    ⟨some "r", none, some mtImageStr, none, some 0, none⟩ []).2 rfl

theorem repo_select_some (inc exc : Option (String → Bool)) (x y : String)
    (h : repo_select inc exc x = some y) : y = x := by
  unfold repo_select at h
  split at h
  · cases h; rfl
  · split at h
    · cases h; rfl
    · split at h
      · cases h; rfl
      · simp at h

theorem filterMap_repo_select_sublist (inc exc : Option (String → Bool))
    (names : List String) :
    (names.filterMap (repo_select inc exc)).Sublist names := by
  induction names with
  | nil => simp
  | cons a as ih =>
    rw [List.filterMap_cons]
    cases hsel : repo_select inc exc a with
    | none => exact ih.cons a
    | some y =>
      have hy : y = a := repo_select_some inc exc a y hsel
      rw [hy]
      exact ih.cons₂ a

/-- C4 counterexample: with include `prod-*` and exclude `prod-test`, the
candidates `prod-api`, `prod-test`, `dev-api` produce
`["dev-api", "prod-api", "prod-test"]`, not `["prod-api"]`:
`prod-test` is admitted because the include pattern matches it first, and
`dev-api` is admitted because the exclude pattern does not match it. -/
theorem C4_counterexample :
    RepositoryLister_list (some prodStar) (some prodTestGlob)
        ["prod-api", "prod-test", "dev-api"] =
      ["dev-api", "prod-api", "prod-test"] ∧
    (["dev-api", "prod-api", "prod-test"] : List String) ≠
      ["prod-api"] := by
  constructor
  · unfold RepositoryLister_list
    have h1 : ["prod-api", "prod-test", "dev-api"].filterMap
        (repo_select (some prodStar) (some prodTestGlob)) =
        ["prod-api", "prod-test", "dev-api"] := rfl
    rw [h1]
    simp only [List.insertionSort, List.orderedInsert]
    norm_num
    decide
  · decide

/-- C4 amended: for the repository filter with include `prod-*` and
exclude `prod-test`, applied to `["prod-api", "prod-test", "dev-api"]`,
the returned list is exactly `["dev-api", "prod-api", "prod-test"]`: a
matching include pattern takes precedence over the exclude patterns, and
a candidate matched by no pattern at all is included through the
exclude branch (the exclude pattern does not match it). -/
theorem C4_amended_result :
    RepositoryLister_list (some prodStar) (some prodTestGlob)
      ["prod-api", "prod-test", "dev-api"] =
      ["dev-api", "prod-api", "prod-test"] := by
  unfold RepositoryLister_list
  have h1 : ["prod-api", "prod-test", "dev-api"].filterMap
      (repo_select (some prodStar) (some prodTestGlob)) =
      ["prod-api", "prod-test", "dev-api"] := rfl
  rw [h1]
  simp only [List.insertionSort, List.orderedInsert]
  norm_num
  decide

/-- C5: for a registry answer with no repeated names (a set of names),
the repository filter's output has no repeated names and is
lexicographically sorted.  (The code itself performs no deduplication:
`list` is `filter_map` plus `sorted`; distinctness is inherited from the
input, whose names the registry returns once each.) -/
theorem C5_sorted_dedup (inc exc : Option (String → Bool))
    (names : List String) (h : names.Nodup) :
    (RepositoryLister_list inc exc names).Nodup ∧
    List.Sorted (· ≤ ·) (RepositoryLister_list inc exc names) := by
  unfold RepositoryLister_list
  constructor
  · have h1 : (names.filterMap (repo_select inc exc)).Nodup :=
      (filterMap_repo_select_sublist inc exc names).nodup h
    exact ((List.perm_insertionSort _ _).nodup_iff).mpr h1
  · exact List.sorted_insertionSort _ _

/-- C5 witness: for the distinct names `b`, `a` the output is without
duplicates and sorted. -/
theorem C5_witness :
    (["b", "a"] : List String).Nodup ∧
    ((RepositoryLister_list none none ["b", "a"]).Nodup ∧
     List.Sorted (· ≤ ·) (RepositoryLister_list none none ["b", "a"])) :=
  ⟨by decide, C5_sorted_dedup none none ["b", "a"] (by decide)⟩

theorem batch_resolve_eq {T : Type} (reg : Registry)
    (digests : List (String × T)) :
    batch_resolve_image_manifests reg digests =
      mapME (fun t =>
        match lookupMap digests t.1 with
        | some d_value =>
          Except.ok (d_value, t.1, (⟨t.2.1, t.2.2⟩ : ResolvedManifest))
        | none =>
          Except.error ("Digest " ++ t.1 ++ " not present in map"))
        (dedupFirst (reg (mapKeys digests))) := rfl

/-- C1 counterexample: the two distinct images `img1`, `img2` share
manifest digest `sha256:d` and fall into one chunk (chunk size 2);
exactly one batch request for the digest is issued, but the resolved
manifest is attached only to `img2` (the per-chunk `HashMap` keeps one
image per digest), so only one record is emitted, not two. -/
theorem C1_counterexample :
    img1.manifest_digest = img2.manifest_digest ∧ img1 ≠ img2 ∧
    phase1Requests 2 [img1, img2] = [["sha256:d"]] ∧
    resolve_images 2 reg1 pm1 pidx1 [img1, img2] =
      .ok [⟨img2, [⟨⟨"M"⟩, none⟩]⟩] := by
  exact ⟨rfl, by decide, rfl, rfl⟩

/-- C1 amended: when N images sharing one manifest digest all fall into
a single chunk, exactly one batch request is issued for that digest, but
the resolved manifest is attached to exactly one of the N owning images
(the last one in input order — the insert-overwriting digest map keeps a
single owner), producing one emitted record rather than N. -/
theorem C1_amended (chunk_size : Nat) (images : List RepositoryImage)
    (d m mt : String) (reg : Registry) (pm : ManifestParser)
    (pidx : IndexParser) (man : ImageManifest) (limg : RepositoryImage)
    (hne : images ≠ []) (hlast : images.getLast? = some limg)
    (hd : ∀ img ∈ images, img.manifest_digest = d)
    (hfit : images.length ≤ chunk_size) (hcs : 0 < chunk_size)
    (hreg : reg [d] = [(d, m, mt)])
    (hmt : ManifestType.from_str mt = some ManifestType.Image)
    (hpm : pm m = some man) :
    phase1Requests chunk_size images = [[d]] ∧
    resolve_images chunk_size reg pm pidx images =
      .ok [⟨limg, [⟨man, none⟩]⟩] := by
  have hchunks : chunksOf chunk_size images = [images] :=
    chunksOf_single chunk_size hcs images hne hfit
  have hmap : buildMap (images.map (fun v => (v.manifest_digest, v))) =
      [(d, limg)] := by
    have hlast2 :
        (images.map (fun v => (v.manifest_digest, v))).getLast? =
          some (limg.manifest_digest, limg) := by
      rw [List.getLast?_map, hlast]
      rfl
    have hk : ∀ p ∈ images.map (fun v => (v.manifest_digest, v)),
        p.1 = d := by
      intro p hp
      obtain ⟨v, hv, rfl⟩ := List.mem_map.mp hp
      exact hd v hv
    have := buildMap_const_key d
      (images.map (fun v => (v.manifest_digest, v))) hk
      (limg.manifest_digest, limg) hlast2
    simpa using this
  have hreq : phase1Requests chunk_size images = [[d]] := by
    unfold phase1Requests
    rw [hchunks]
    simp only [List.map_cons, List.map_nil, hmap]
    rfl
  refine ⟨hreq, ?_⟩
  have hbatch : batch_resolve_image_manifests reg [(d, limg)] =
      .ok [(limg, d, ⟨m, mt⟩)] := by
    have hdd : dedupFirst [(d, m, mt)] = [(d, m, mt)] := by
      rw [dedupFirst_cons]
      rfl
    rw [batch_resolve_eq, show mapKeys [(d, limg)] = [d] from rfl, hreg,
      hdd]
    simp [mapME, lookupMap]
  have hm1 : mapME (fun chunk => batch_resolve_image_manifests reg
      (buildMap (chunk.map (fun v => (v.manifest_digest, v)))))
      [images] = .ok [[(limg, d, ⟨m, mt⟩)]] := by
    simp only [mapME, hmap, hbatch]
  have hcl : classify_results pm pidx [(limg, d, ⟨m, mt⟩)] =
      .ok ([⟨limg, [⟨man, none⟩]⟩], []) := by
    simp only [classify_results, hmt, hpm]
  have hdesc : resolve_image_descriptors chunk_size reg pm pidx images =
      .ok ([⟨limg, [⟨man, none⟩]⟩], []) := by
    unfold resolve_image_descriptors
    rw [hchunks, hm1]
    show classify_results pm pidx
      ([[(limg, d, (⟨m, mt⟩ : ResolvedManifest))]].flatten) = _
    rw [show ([[(limg, d, (⟨m, mt⟩ : ResolvedManifest))]] :
        List (List (RepositoryImage × String × ResolvedManifest))).flatten
        = [(limg, d, ⟨m, mt⟩)] from rfl]
    exact hcl
  unfold resolve_images
  rw [hdesc]
  rfl

/-- C1 witness: the amended behavior at the concrete two-image fixture:
one request for `sha256:d`, one emitted record owned by `img2`. -/
theorem C1_amended_witness :
    ([img1, img2] ≠ [] ∧ [img1, img2].getLast? = some img2 ∧
     (∀ img ∈ [img1, img2], img.manifest_digest = "sha256:d") ∧
     [img1, img2].length ≤ 2 ∧ 0 < 2 ∧
     reg1 ["sha256:d"] = [("sha256:d", "M", mtImageStr)] ∧
     ManifestType.from_str mtImageStr = some ManifestType.Image ∧
     pm1 "M" = some ⟨"M"⟩) ∧
    (phase1Requests 2 [img1, img2] = [["sha256:d"]] ∧
     resolve_images 2 reg1 pm1 pidx1 [img1, img2] =
       .ok [⟨img2, [⟨⟨"M"⟩, none⟩]⟩]) := by
  refine ⟨⟨by simp, rfl, by decide, by decide, by decide, rfl, rfl, rfl⟩,
    ?_⟩
  exact C1_amended 2 [img1, img2] "sha256:d" "M" mtImageStr reg1 pm1
    pidx1 ⟨"M"⟩ img2 (by simp) rfl (by decide) (by decide) (by decide)
    rfl rfl rfl

theorem classify_children_isErr_of_mem (pm : ManifestParser)
    (l : List ((RepositoryImage × Descriptor) × String ×
      ResolvedManifest))
    (t : (RepositoryImage × Descriptor) × String × ResolvedManifest)
    (ht : t ∈ l)
    (hL : ManifestType.from_str t.2.2.media_type =
      some ManifestType.List) :
    isErr (classify_children pm l) = true := by
  induction l with
  | nil => simp at ht
  | cons e rest ih =>
    obtain ⟨⟨i, dsc⟩, s, rm⟩ := e
    rcases List.mem_cons.mp ht with rfl | hmem
    · simp only at hL
      simp only [classify_children, hL]
      rfl
    · simp only [classify_children]
      cases hh : ManifestType.from_str rm.media_type with
      | none => exact ih hmem
      | some k =>
        cases k with
        | List => rfl
        | Image =>
          cases hpm : pm rm.manifest with
          | none => rfl
          | some mres =>
            cases hrest : classify_children pm rest with
            | error e2 => rfl
            | ok parsed =>
              have := ih hmem
              rw [hrest] at this
              simp [isErr] at this

/-- C6: if any phase-2 batch response contains a child whose media type
classifies as `List`, `resolve_image_manifests` returns an error for the
whole repository (the entry is not skipped, and no result set is
produced). -/
theorem C6_list_child_fails (reg : Registry) (pm : ManifestParser)
    (dls : List (RepositoryImage × List Descriptor))
    (p : RepositoryImage × List Descriptor) (hp : p ∈ dls)
    (rs : List ((RepositoryImage × Descriptor) × String ×
      ResolvedManifest))
    (hrs : batch_resolve_image_manifests reg
      (buildMap (p.2.map (fun d => (d.digest, (p.1, d))))) = .ok rs)
    (t : (RepositoryImage × Descriptor) × String × ResolvedManifest)
    (ht : t ∈ rs)
    (hL : ManifestType.from_str t.2.2.media_type =
      some ManifestType.List) :
    isErr (resolve_image_manifests reg pm dls) = true := by
  unfold resolve_image_manifests
  cases hall : mapME (fun p => batch_resolve_image_manifests reg
      (buildMap (p.2.map (fun d => (d.digest, (p.1, d)))))) dls with
  | error e => rfl
  | ok all_results =>
    obtain ⟨y, hy1, hy2⟩ := mapME_ok_mem _ _ _ hall p hp
    rw [hrs] at hy1
    cases hy1
    have htf : t ∈ all_results.flatten :=
      List.mem_flatten.mpr ⟨rs, hy2, ht⟩
    have hkey : t.1.1 ∈
        dedupFirst (all_results.flatten.map (fun u => u.1.1)) := by
      rw [mem_dedupFirst]
      exact List.mem_map_of_mem _ htf
    have hgroup : (t.1.1, all_results.flatten.filter
        (fun b => b.1.1 = t.1.1)) ∈
        groupPairsBy (fun u => u.1.1) all_results.flatten := by
      unfold groupPairsBy
      exact List.mem_map_of_mem _ hkey
    have hmemg : t ∈ all_results.flatten.filter
        (fun b => b.1.1 = t.1.1) :=
      List.mem_filter.mpr ⟨htf, by simp⟩
    have herr : isErr (classify_children pm
        (all_results.flatten.filter (fun b => b.1.1 = t.1.1))) = true :=
      classify_children_isErr_of_mem pm _ t hmemg hL
    apply mapME_isErr_of_mem _ _ _ hgroup
    cases hcc : classify_children pm
        (all_results.flatten.filter (fun b => b.1.1 = t.1.1)) with
    | error e2 => simp only [hcc]; rfl
    | ok parsed =>
      rw [hcc] at herr
      simp [isErr] at herr

/-- C6 witness: a deferred image whose single child digest `dd` resolves
to an image index makes phase-2 resolution fail. -/
theorem C6_witness :
    batch_resolve_image_manifests regIdx
      (buildMap ([descA].map (fun d => (d.digest, (imgL1, d))))) =
      .ok [((imgL1, descA), "dd", ⟨"IDX", mtIndexStr⟩)] ∧
    ManifestType.from_str mtIndexStr = some ManifestType.List ∧
    isErr (resolve_image_manifests regIdx pm1 [(imgL1, [descA])]) =
      true := by
  refine ⟨rfl, rfl, ?_⟩
  exact C6_list_child_fails regIdx pm1 [(imgL1, [descA])]
    (imgL1, [descA]) (List.mem_singleton.mpr rfl)
    [((imgL1, descA), "dd", ⟨"IDX", mtIndexStr⟩)] rfl
    ((imgL1, descA), "dd", ⟨"IDX", mtIndexStr⟩)
    (List.mem_singleton.mpr rfl) rfl

theorem batch_pointwise {T : Type} [Inhabited T] (reg : Registry)
    (man mt : String → String)
    (hreg : ∀ ids, reg ids = ids.map (fun dg => (dg, man dg, mt dg)))
    (m : List (String × T)) (hnd : (mapKeys m).Nodup) :
    batch_resolve_image_manifests reg m =
      .ok (m.map (fun kv =>
        (kv.2, kv.1, (⟨man kv.1, mt kv.1⟩ : ResolvedManifest)))) := by
  rw [batch_resolve_eq, hreg]
  have hresp : (mapKeys m).map (fun dg => (dg, man dg, mt dg)) =
      m.map (fun kv => (kv.1, man kv.1, mt kv.1)) := by
    unfold mapKeys
    rw [List.map_map]
    rfl
  rw [hresp]
  have hnd2 : (m.map (fun kv => (kv.1, man kv.1, mt kv.1))).Nodup := by
    apply List.Nodup.of_map Prod.fst
    rw [List.map_map]
    exact hnd
  rw [dedupFirst_eq_self _ hnd2]
  have hlk : ∀ kv ∈ m, lookupMap m kv.1 = some kv.2 := by
    intro kv hkv
    exact lookupMap_eq_some_of_mem_nodup m hnd kv.1 kv.2 hkv
  rw [mapME_ok_of_forall _
    (fun u => ((lookupMap m u.1).getD default, u.1,
      (⟨u.2.1, u.2.2⟩ : ResolvedManifest))) _ ?_]
  · congr 1
    rw [List.map_map]
    apply List.map_congr_left
    intro kv hkv
    simp [hlk kv hkv]
  · intro u hu
    obtain ⟨kv, hkv, rfl⟩ := List.mem_map.mp hu
    simp [hlk kv hkv]

theorem mem_insertMap_sub {T : Type} (m : List (String × T)) (k : String)
    (v : T) (x : String × T) (hx : x ∈ insertMap m k v) :
    x ∈ m ∨ x = (k, v) := by
  induction m with
  | nil => simpa [insertMap] using hx
  | cons p rest ih =>
    obtain ⟨k', v'⟩ := p
    by_cases hk : k = k'
    · subst hk
      simp only [insertMap, if_pos rfl] at hx
      rcases List.mem_cons.mp hx with rfl | h2
      · exact Or.inr rfl
      · exact Or.inl (List.mem_cons_of_mem _ h2)
    · simp only [insertMap, if_neg hk] at hx
      rcases List.mem_cons.mp hx with rfl | h2
      · exact Or.inl (List.mem_cons_self _ _)
      · rcases ih h2 with h3 | h3
        · exact Or.inl (List.mem_cons_of_mem _ h3)
        · exact Or.inr h3

theorem mem_buildMap_sub {T : Type} (l : List (String × T))
    (x : String × T) (hx : x ∈ buildMap l) : x ∈ l := by
  suffices haux : ∀ (acc : List (String × T)) (l2 : List (String × T)),
      x ∈ l2.foldl (fun m kv => insertMap m kv.1 kv.2) acc →
      x ∈ acc ∨ x ∈ l2 by
    rcases haux [] l hx with h | h
    · simp at h
    · exact h
  intro acc l2
  induction l2 generalizing acc with
  | nil => intro h; exact Or.inl h
  | cons kv rest ih =>
    intro h
    rcases ih (insertMap acc kv.1 kv.2) h with h2 | h2
    · rcases mem_insertMap_sub acc kv.1 kv.2 x h2 with h3 | h3
      · exact Or.inl h3
      · right
        rw [h3]
        exact List.mem_cons_self _ _
    · exact Or.inr (List.mem_cons_of_mem _ h2)

theorem buildMap_ne_nil {T : Type} (l : List (String × T)) (h : l ≠ []) :
    buildMap l ≠ [] := by
  intro hc
  have hkeys := mapKeys_buildMap l
  rw [hc] at hkeys
  cases l with
  | nil => exact h rfl
  | cons kv rest =>
    rw [show mapKeys (kv :: rest) = kv.1 :: mapKeys rest from rfl,
      dedupFirst_cons] at hkeys
    simp [mapKeys] at hkeys

theorem dedupFirst_const_append {K : Type} [DecidableEq K] (k : K)
    (xs ys : List K) (hxs : xs ≠ []) (hall : ∀ x ∈ xs, x = k)
    (hys : ∀ y ∈ ys, y ≠ k) :
    dedupFirst (xs ++ ys) = k :: dedupFirst ys := by
  cases xs with
  | nil => exact absurd rfl hxs
  | cons a xs2 =>
    have ha : a = k := hall a (List.mem_cons_self _ _)
    subst ha
    rw [List.cons_append, dedupFirst_cons]
    congr 1
    rw [List.filter_append]
    have h1 : xs2.filter (fun b => b ≠ a) = [] := by
      rw [List.filter_eq_nil_iff]
      intro b hb
      have := hall b (List.mem_cons_of_mem _ hb)
      simp [this]
    have h2 : ys.filter (fun b => b ≠ a) = ys := by
      rw [List.filter_eq_self]
      intro b hb
      simpa using hys b hb
    rw [h1, h2, List.nil_append]

theorem dedupFirst_flatten_blocks {β K : Type} [DecidableEq K]
    (key : β → K) :
    ∀ (pairs : List (K × List β)),
      (∀ q ∈ pairs, q.2 ≠ [] ∧ ∀ b ∈ q.2, key b = q.1) →
      (pairs.map Prod.fst).Nodup →
      dedupFirst (((pairs.map Prod.snd).flatten).map key) =
        pairs.map Prod.fst := by
  intro pairs
  induction pairs with
  | nil => intro _ _; rfl
  | cons q rest ih =>
    intro hq hnd
    simp only [List.map_cons, List.flatten_cons, List.map_append]
    rw [dedupFirst_const_append q.1 (q.2.map key)
      (((rest.map Prod.snd).flatten).map key) ?_ ?_ ?_]
    · congr 1
      exact ih (fun r hr => hq r (List.mem_cons_of_mem _ hr))
        (List.nodup_cons.mp hnd).2
    · have := (hq q (List.mem_cons_self _ _)).1
      simpa using this
    · intro x hx
      obtain ⟨b, hb, rfl⟩ := List.mem_map.mp hx
      exact (hq q (List.mem_cons_self _ _)).2 b hb
    · intro y hy
      obtain ⟨b, hb, rfl⟩ := List.mem_map.mp hy
      obtain ⟨blk, hblk, hbin⟩ := List.mem_flatten.mp hb
      obtain ⟨r, hr, rfl⟩ := List.mem_map.mp hblk
      rw [(hq r (List.mem_cons_of_mem _ hr)).2 b hbin]
      intro hc
      exact (List.nodup_cons.mp hnd).1
        (hc ▸ List.mem_map_of_mem Prod.fst hr)

theorem classify_children_all_ok (pm : ManifestParser)
    (l : List ((RepositoryImage × Descriptor) × String ×
      ResolvedManifest))
    (h : ∀ u ∈ l, ManifestType.from_str u.2.2.media_type =
      some ManifestType.Image ∧ (pm u.2.2.manifest).isSome = true) :
    ∃ out, classify_children pm l = .ok out := by
  induction l with
  | nil => exact ⟨[], rfl⟩
  | cons u rest ih =>
    obtain ⟨out, hout⟩ := ih (fun x hx => h x (List.mem_cons_of_mem _ hx))
    obtain ⟨h1, h2⟩ := h u (List.mem_cons_self _ _)
    obtain ⟨mres, hm⟩ := Option.isSome_iff_exists.mp h2
    obtain ⟨⟨i, dsc⟩, s, rm⟩ := u
    simp only at h1 hm
    refine ⟨⟨mres, some dsc⟩ :: out, ?_⟩
    simp only [classify_children, h1, hm, hout]

theorem resolve_image_manifests_good (reg : Registry)
    (pm : ManifestParser) (man mt : String → String)
    (hreg : ∀ ids, reg ids = ids.map (fun dg => (dg, man dg, mt dg)))
    (dls : List (RepositoryImage × List Descriptor))
    (hdinst : (dls.map Prod.fst).Nodup)
    (hgood : ∀ p ∈ dls, p.2 ≠ [] ∧ ∀ dsc ∈ p.2,
      ManifestType.from_str (mt dsc.digest) = some ManifestType.Image ∧
      (pm (man dsc.digest)).isSome = true) :
    ∃ out, resolve_image_manifests reg pm dls = .ok out ∧
      out.length = dls.length := by
  set bres := fun (p : RepositoryImage × List Descriptor) =>
    (buildMap (p.2.map (fun d => (d.digest, (p.1, d))))).map
      (fun kv => (kv.2, kv.1, (⟨man kv.1, mt kv.1⟩ : ResolvedManifest)))
    with hbres
  have hcall : ∀ p ∈ dls, batch_resolve_image_manifests reg
      (buildMap (p.2.map (fun d => (d.digest, (p.1, d))))) =
      .ok (bres p) := by
    intro p _
    exact batch_pointwise reg man mt hreg _ (buildMap_keys_nodup _)
  have hmm : mapME (fun p => batch_resolve_image_manifests reg
      (buildMap (p.2.map (fun d => (d.digest, (p.1, d)))))) dls =
      .ok (dls.map bres) :=
    mapME_ok_of_forall _ bres dls hcall
  have hb1 : ∀ p ∈ dls, bres p ≠ [] := by
    intro p hp
    have hne := (hgood p hp).1
    have h2 : p.2.map (fun d => (d.digest, (p.1, d))) ≠ [] := by
      simpa using hne
    have hb := buildMap_ne_nil _ h2
    rw [hbres]
    intro hc
    simp only [List.map_eq_nil_iff] at hc
    exact hb hc
  have hb2 : ∀ p ∈ dls, ∀ u ∈ bres p, u.1.1 = p.1 := by
    intro p hp u hu
    rw [hbres] at hu
    obtain ⟨kv, hkv, rfl⟩ := List.mem_map.mp hu
    have hkv2 := mem_buildMap_sub _ _ hkv
    obtain ⟨d, hd2, hdeq⟩ := List.mem_map.mp hkv2
    rw [← hdeq]
  have hb3 : ∀ p ∈ dls, ∀ u ∈ bres p,
      ManifestType.from_str u.2.2.media_type =
        some ManifestType.Image ∧
      (pm u.2.2.manifest).isSome = true := by
    intro p hp u hu
    rw [hbres] at hu
    obtain ⟨kv, hkv, rfl⟩ := List.mem_map.mp hu
    have hkv2 := mem_buildMap_sub _ _ hkv
    obtain ⟨d, hd2, hdeq⟩ := List.mem_map.mp hkv2
    have hd3 := (hgood p hp).2 d hd2
    have hk1 : kv.1 = d.digest := by rw [← hdeq]
    rw [hk1]
    exact hd3
  have hded : dedupFirst (((dls.map bres).flatten).map
      (fun u => u.1.1)) = dls.map Prod.fst := by
    have hblocks := dedupFirst_flatten_blocks
      (fun (u : (RepositoryImage × Descriptor) × String ×
        ResolvedManifest) => u.1.1)
      (dls.map (fun p => (p.1, bres p))) ?_ ?_
    · rw [List.map_map, List.map_map] at hblocks
      convert hblocks using 2
    · intro q hq
      obtain ⟨p, hp, rfl⟩ := List.mem_map.mp hq
      exact ⟨hb1 p hp, hb2 p hp⟩
    · rw [List.map_map]
      simpa using hdinst
  have hgroups : ∃ ys, mapME (fun g =>
      match classify_children pm g.2 with
      | .error e => .error e
      | .ok parsed => .ok (⟨g.1, parsed⟩ : ImageWithManifests))
      (groupPairsBy (fun t => t.1.1) ((dls.map bres).flatten)) =
        .ok ys ∧ ys.length = dls.length := by
    have hex : ∀ g ∈ groupPairsBy (fun (t : (RepositoryImage ×
        Descriptor) × String × ResolvedManifest) => t.1.1)
        ((dls.map bres).flatten), ∃ y,
        (match classify_children pm g.2 with
          | Except.error e => Except.error e
          | Except.ok parsed =>
            Except.ok (⟨g.1, parsed⟩ : ImageWithManifests)) =
          Except.ok y := by
      intro g hg
      obtain ⟨k, hk, rfl⟩ := List.mem_map.mp hg
      have hclok := classify_children_all_ok pm
        (((dls.map bres).flatten).filter (fun b => b.1.1 = k)) ?_
      · obtain ⟨parsed, hparsed⟩ := hclok
        exact ⟨⟨k, parsed⟩, by rw [hparsed]⟩
      · intro u hu
        have hu2 : u ∈ (dls.map bres).flatten :=
          (List.mem_filter.mp hu).1
        obtain ⟨blk, hblk, hbin⟩ := List.mem_flatten.mp hu2
        obtain ⟨p, hp, rfl⟩ := List.mem_map.mp hblk
        exact hb3 p hp u hbin
    obtain ⟨ys, h1, h2, _⟩ := mapME_ok_of_forall_exists
      (fun g =>
        match classify_children pm g.2 with
        | .error e => .error e
        | .ok parsed => .ok (⟨g.1, parsed⟩ : ImageWithManifests))
      (groupPairsBy (fun t => t.1.1) ((dls.map bres).flatten)) hex
    refine ⟨ys, h1, ?_⟩
    rw [h2]
    have hlg : (groupPairsBy
        (fun (t : (RepositoryImage × Descriptor) × String ×
          ResolvedManifest) => t.1.1)
        ((dls.map bres).flatten)).length =
        (dedupFirst (((dls.map bres).flatten).map
          (fun u => u.1.1))).length := by
      unfold groupPairsBy
      rw [List.length_map]
    rw [hlg, hded]
    exact List.length_map dls Prod.fst
  obtain ⟨ys, hys, hlen⟩ := hgroups
  refine ⟨ys, ?_, hlen⟩
  unfold resolve_image_manifests
  rw [hmm]
  exact hys

theorem classify_results_good (pm : ManifestParser) (pidx : IndexParser)
    (man mt : String → String) :
    ∀ (images : List RepositoryImage),
      (∀ img ∈ images,
        (ManifestType.from_str (mt img.manifest_digest) =
            some ManifestType.Image ∧
          (pm (man img.manifest_digest)).isSome = true) ∨
        (ManifestType.from_str (mt img.manifest_digest) =
            some ManifestType.List ∧
          ∃ idx, pidx (man img.manifest_digest) = some idx ∧
            idx.manifests ≠ [] ∧
            ∀ dsc ∈ idx.manifests,
              ManifestType.from_str (mt dsc.digest) =
                some ManifestType.Image ∧
              (pm (man dsc.digest)).isSome = true)) →
      ∃ res dls,
        classify_results pm pidx (images.map (fun v =>
          (v, v.manifest_digest,
            (⟨man v.manifest_digest, mt v.manifest_digest⟩ :
              ResolvedManifest)))) = .ok (res, dls) ∧
        res.length + dls.length = images.length ∧
        (dls.map Prod.fst).Sublist images ∧
        ∀ p ∈ dls, p.2 ≠ [] ∧ ∀ dsc ∈ p.2,
          ManifestType.from_str (mt dsc.digest) =
            some ManifestType.Image ∧
          (pm (man dsc.digest)).isSome = true := by
  intro images
  induction images with
  | nil => intro _; exact ⟨[], [], rfl, rfl, by simp, by simp⟩
  | cons img rest ih =>
    intro h
    obtain ⟨res, dls, hok, hlen, hsub, hgood⟩ :=
      ih (fun x hx => h x (List.mem_cons_of_mem _ hx))
    rcases h img (List.mem_cons_self _ _) with ⟨h1, h2⟩ |
      ⟨h1, idx, hidx, hne, hdesc⟩
    · obtain ⟨mres, hm⟩ := Option.isSome_iff_exists.mp h2
      refine ⟨⟨img, [⟨mres, none⟩]⟩ :: res, dls, ?_, ?_,
        hsub.cons _, hgood⟩
      · simp only [List.map_cons, classify_results, h1, hm, hok]
      · simp only [List.length_cons]
        omega
    · refine ⟨res, (img, idx.manifests) :: dls, ?_, ?_, ?_, ?_⟩
      · simp only [List.map_cons, classify_results, h1, hidx, hok]
      · simp only [List.length_cons]
        omega
      · simp only [List.map_cons]
        exact hsub.cons₂ img
      · intro p hp
        rcases List.mem_cons.mp hp with rfl | hp2
        · exact ⟨hne, hdesc⟩
        · exact hgood p hp2

theorem resolve_image_descriptors_good (chunk_size : Nat)
    (hcs : 0 < chunk_size) (reg : Registry) (pm : ManifestParser)
    (pidx : IndexParser) (man mt : String → String)
    (hreg : ∀ ids, reg ids = ids.map (fun dg => (dg, man dg, mt dg)))
    (images : List RepositoryImage)
    (hnd : (images.map (fun i => i.manifest_digest)).Nodup)
    (himg : ∀ img ∈ images,
      (ManifestType.from_str (mt img.manifest_digest) =
          some ManifestType.Image ∧
        (pm (man img.manifest_digest)).isSome = true) ∨
      (ManifestType.from_str (mt img.manifest_digest) =
          some ManifestType.List ∧
        ∃ idx, pidx (man img.manifest_digest) = some idx ∧
          idx.manifests ≠ [] ∧
          ∀ dsc ∈ idx.manifests,
            ManifestType.from_str (mt dsc.digest) =
              some ManifestType.Image ∧
            (pm (man dsc.digest)).isSome = true)) :
    ∃ res dls, resolve_image_descriptors chunk_size reg pm pidx images =
        .ok (res, dls) ∧
      res.length + dls.length = images.length ∧
      (dls.map Prod.fst).Sublist images ∧
      ∀ p ∈ dls, p.2 ≠ [] ∧ ∀ dsc ∈ p.2,
        ManifestType.from_str (mt dsc.digest) =
          some ManifestType.Image ∧
        (pm (man dsc.digest)).isSome = true := by
  have hchunk : ∀ c ∈ chunksOf chunk_size images,
      batch_resolve_image_manifests reg
        (buildMap (c.map (fun v => (v.manifest_digest, v)))) =
      .ok (c.map (fun v => (v, v.manifest_digest,
        (⟨man v.manifest_digest, mt v.manifest_digest⟩ :
          ResolvedManifest)))) := by
    intro c hc
    have hsubl : (c.map (fun i => i.manifest_digest)).Nodup := by
      have hs := (chunksOf_sublist chunk_size hcs images c hc).map
        (fun i => i.manifest_digest)
      exact List.Sublist.nodup hs hnd
    have hkeys : mapKeys (c.map (fun v => (v.manifest_digest, v))) =
        c.map (fun i => i.manifest_digest) := by
      unfold mapKeys
      rw [List.map_map]
      rfl
    have hbm : buildMap (c.map (fun v => (v.manifest_digest, v))) =
        c.map (fun v => (v.manifest_digest, v)) :=
      buildMap_eq_self _ (by rw [hkeys]; exact hsubl)
    rw [hbm, batch_pointwise reg man mt hreg
      (c.map (fun v => (v.manifest_digest, v)))
      (by rw [hkeys]; exact hsubl)]
    rw [List.map_map]
    rfl
  have hmm := mapME_ok_of_forall
    (fun (c : List RepositoryImage) => batch_resolve_image_manifests reg
      (buildMap (c.map (fun v => (v.manifest_digest, v)))))
    (fun (c : List RepositoryImage) => c.map (fun v => (v, v.manifest_digest,
      (⟨man v.manifest_digest, mt v.manifest_digest⟩ :
        ResolvedManifest))))
    (chunksOf chunk_size images) hchunk
  have hfl : ((chunksOf chunk_size images).map
      (fun c => c.map (fun v => (v, v.manifest_digest,
        (⟨man v.manifest_digest, mt v.manifest_digest⟩ :
          ResolvedManifest))))).flatten =
      images.map (fun v => (v, v.manifest_digest,
        (⟨man v.manifest_digest, mt v.manifest_digest⟩ :
          ResolvedManifest))) := by
    rw [← List.map_flatten, chunksOf_flatten chunk_size hcs]
  obtain ⟨res, dls, hok, hlen, hsub, hgood⟩ :=
    classify_results_good pm pidx man mt images himg
  refine ⟨res, dls, ?_, hlen, hsub, hgood⟩
  unfold resolve_image_descriptors
  rw [hmm]
  show classify_results pm pidx
    (((chunksOf chunk_size images).map
      (fun c => c.map (fun v => (v, v.manifest_digest,
        (⟨man v.manifest_digest, mt v.manifest_digest⟩ :
          ResolvedManifest))))).flatten) = _
  rw [hfl]
  exact hok

/-- C3 counterexample: one image (`img3`, recognized kind `List`) whose
index parses successfully but is empty.  The registry answers every
request faithfully and every media type is recognized, yet full
resolution emits zero records while the input has one distinct
(repository, digest) pair. -/
theorem C3_counterexample :
    regL ["dL"] = [("dL", "IDX", mtIndexStr)] ∧
    ManifestType.from_str mtIndexStr = some ManifestType.List ∧
    pidxL "IDX" = some ⟨[]⟩ ∧
    (dedupFirst ([img3].map
      (fun i => (i.repository_name, i.manifest_digest)))).length = 1 ∧
    resolve_images 100 regL pm1 pidxL [img3] = .ok [] := by
  exact ⟨rfl, rfl, rfl, rfl, rfl⟩

/-- C3 amended: for a well-behaved registry (each requested digest is
answered exactly once, by a pointwise oracle), input digests that are
pairwise distinct, every returned media type recognized, and every
`List` image parsing to an index with at least one descriptor whose
children all classify as `Image` and parse — full resolution succeeds
and emits exactly one `ImageWithManifests` per distinct
(repository, digest) pair of the input.  (Without the nonempty-index
proviso the equality fails: a `List` image with an empty index emits
nothing, as the counterexample shows.) -/
theorem C3_amended (chunk_size : Nat) (hcs : 0 < chunk_size)
    (reg : Registry) (pm : ManifestParser) (pidx : IndexParser)
    (man mt : String → String)
    (hreg : ∀ ids, reg ids = ids.map (fun dg => (dg, man dg, mt dg)))
    (images : List RepositoryImage)
    (hnd : (images.map (fun i => i.manifest_digest)).Nodup)
    (himg : ∀ img ∈ images,
      (ManifestType.from_str (mt img.manifest_digest) =
          some ManifestType.Image ∧
        (pm (man img.manifest_digest)).isSome = true) ∨
      (ManifestType.from_str (mt img.manifest_digest) =
          some ManifestType.List ∧
        ∃ idx, pidx (man img.manifest_digest) = some idx ∧
          idx.manifests ≠ [] ∧
          ∀ dsc ∈ idx.manifests,
            ManifestType.from_str (mt dsc.digest) =
              some ManifestType.Image ∧
            (pm (man dsc.digest)).isSome = true)) :
    (images.map (fun i =>
      (i.repository_name, i.manifest_digest))).Nodup ∧
    ∃ out, resolve_images chunk_size reg pm pidx images = .ok out ∧
      out.length = images.length := by
  constructor
  · apply List.Nodup.of_map Prod.snd
    rw [List.map_map]
    exact hnd
  obtain ⟨res, dls, hok, hlen, hsub, hgood⟩ :=
    resolve_image_descriptors_good chunk_size hcs reg pm pidx man mt
      hreg images hnd himg
  have himgsnd : images.Nodup := List.Nodup.of_map _ hnd
  unfold resolve_images
  rw [hok]
  cases dls with
  | nil =>
    refine ⟨res, rfl, ?_⟩
    simpa using hlen
  | cons p0 drest =>
    have hdinst : (((p0 :: drest).map Prod.fst)).Nodup :=
      List.Sublist.nodup hsub himgsnd
    obtain ⟨out2, hout2, hlen2⟩ := resolve_image_manifests_good reg pm
      man mt hreg (p0 :: drest) hdinst hgood
    refine ⟨res ++ out2, ?_, ?_⟩
    · show (match resolve_image_manifests reg pm (p0 :: drest) with
        | Except.error e => Except.error e
        | Except.ok manifest_list_resolved =>
          Except.ok (res ++ manifest_list_resolved)) =
        Except.ok (res ++ out2)
      rw [hout2]
    · rw [List.length_append, hlen2]
      exact hlen

/-- C3 witness: the amended count holds at the concrete two-image end-to-
end fixture (one direct image `d1`, one list `d2` expanding to `da`,
`db`): two records for two distinct pairs. -/
theorem C3_amended_witness :
    (([imgA, imgB].map (fun i => i.manifest_digest)).Nodup) ∧
    (([imgA, imgB].map (fun i =>
      (i.repository_name, i.manifest_digest))).Nodup ∧
    ∃ out, resolve_images 100 regP pm1 pidxP [imgA, imgB] = .ok out ∧
      out.length = [imgA, imgB].length) := by
  refine ⟨by decide, ?_⟩
  refine C3_amended 100 (by decide) regP pm1 pidxP manF mtF
    (fun ids => rfl) [imgA, imgB] (by decide) ?_
  intro img hm
  rcases List.mem_cons.mp hm with rfl | hm2
  · left
    exact ⟨rfl, rfl⟩
  · rcases List.mem_cons.mp hm2 with rfl | hm3
    · right
      refine ⟨rfl, ⟨[desc1, desc2]⟩, rfl, by simp, ?_⟩
      intro dsc hdsc
      rcases List.mem_cons.mp hdsc with rfl | h4
      · exact ⟨rfl, rfl⟩
      · rcases List.mem_cons.mp h4 with rfl | h5
        · exact ⟨rfl, rfl⟩
        · simp at h5
    · simp at hm3
